import Mathlib

/-!
Verification of the singly-linked stack in `src/lib.rs`.

The Rust stack stores a chain of exclusively owned nodes
(`head : Option<Box<Tile<T>>>`, each `Tile` holding a `value` and a
`next : Option<Box<Tile<T>>>`) together with a `size : usize` counter.
We embed the node chain as a `List T`: `None` becomes `[]` and
`Some(Box(Tile { value, next }))` becomes `value :: next`, which is an
exact structural correspondence.  `usize` is embedded as `Nat`; the
`-= 1` operations of the source are Rust unsigned subtractions, embedded
as truncated `Nat` subtraction, with the no-underflow facts proved
separately.  Methods taking `&mut self` become functions returning the
updated stack; methods taking `&self` are pure functions of the stack,
so their freedom from mutation is part of the embedding itself.
-/

/-- `Stack<T>` from `src/lib.rs`: `head: Option<Box<Tile<T>>>` embedded as a
`List T` of the node values from top to bottom, and `size: usize` as `Nat`. -/
structure Stack (T : Type) where
  head : List T
  size : Nat
  deriving Repr, DecidableEq

/-- `Stack::new`: head pointing to none and zero size. -/
def Stack.new (T : Type) : Stack T :=
  { head := [], size := 0 }

/-- `Stack::peek`: the value in the head node, or `none` when the stack is
empty.  Rust takes `&self`, so in the embedding `peek` is a pure function of
the stack state and cannot change it. -/
def Stack.peek {T : Type} (s : Stack T) : Option T :=
  match s.head with
  | v :: _ => some v
  | [] => none

/-- `Stack::pop`: on `Some(v)` the head becomes `v.next`, the size is
decremented (unsigned subtraction), and `Some(v.value)` is returned; on
`None` nothing changes and `None` is returned.  The returned pair is
(result, updated stack). -/
def Stack.pop {T : Type} (s : Stack T) : Option T × Stack T :=
  match s.head with
  | v :: next => (some v, { head := next, size := s.size - 1 })
  | [] => (none, s)

/-- `Stack::push`: increments `size`, then makes a new tile whose `next` is
the previous head (both match arms of the source build `value :: old head`). -/
def Stack.push {T : Type} (s : Stack T) (data : T) : Stack T :=
  { head := data :: s.head, size := s.size + 1 }

/-- The loop of `Stack::search`: walk `ptr` down the chain carrying `pos`;
return `Some(pos)` at the first node whose value equals `data`, otherwise
decrement `pos` (unsigned subtraction) and continue; `None` at the end. -/
def searchAux {T : Type} [DecidableEq T] (ptr : List T) (pos : Nat) (data : T) :
    Option Nat :=
  match ptr with
  | p :: next => if p = data then some pos else searchAux next (pos - 1) data
  | [] => none

/-- `Stack::search`: start the loop at the head with `pos = self.size`.
Rust requires `T: PartialEq`; we require decidable equality. -/
def Stack.search {T : Type} [DecidableEq T] (s : Stack T) (data : T) :
    Option Nat :=
  searchAux s.head s.size data

/-- States reachable from `Stack::new` by the five operations.  `peek` and
`search` take `&self` and leave the state unchanged, so only `push` and
`pop` produce new states. -/
inductive Stack.Reachable {T : Type} : Stack T → Prop where
  | new : Stack.Reachable (Stack.new T)
  | push (s : Stack T) (v : T) : Stack.Reachable s → Stack.Reachable (s.push v)
  | pop (s : Stack T) : Stack.Reachable s → Stack.Reachable (s.pop).2

/-- The 0-based depth from the top of the first element of `l` equal to `v`,
if any.  Stated from the words of the spec (position of the first, i.e.
topmost, match) to compare against what `search` computes. -/
def firstMatchDepth {T : Type} [DecidableEq T] (l : List T) (v : T) :
    Option Nat :=
  match l with
  | [] => none
  | x :: xs => if x = v then some 0 else (firstMatchDepth xs v).map (· + 1)

/-- The subtraction `self.size -= 1` in `pop` runs only when the head is
present; it stays above zero exactly when the size is then at least 1. -/
def Stack.popNoUnderflow {T : Type} (s : Stack T) : Prop :=
  s.head ≠ [] → 1 ≤ s.size

instance {T : Type} (s : Stack T) : Decidable (s.popNoUnderflow) :=
  if h : 1 ≤ s.size then .isTrue (fun _ => h)
  else
    match hh : s.head with
    | [] => .isTrue (fun hn => absurd hh hn)
    | _ :: _ => .isFalse (fun f => h (f (by simp [hh])))

/-- The subtraction `pos -= 1` in the `search` loop is executed once per
visited node; this predicate demands `1 ≤ pos` at every such decrement. -/
def searchNoUnderflow {T : Type} : List T → Nat → Prop
  | [], _ => True
  | _ :: next, pos => 1 ≤ pos ∧ searchNoUnderflow next (pos - 1)

instance {T : Type} (l : List T) (pos : Nat) :
    Decidable (searchNoUnderflow l pos) := by
  induction l generalizing pos with
  | nil => exact .isTrue trivial
  | cons x xs ih => exact @instDecidableAnd _ _ _ (ih (pos - 1))

/-- The chain-length invariant: the `size` field equals the number of nodes
reachable from `head`. -/
def Stack.Inv {T : Type} (s : Stack T) : Prop :=
  s.size = s.head.length

theorem Stack.inv_new {T : Type} : (Stack.new T).Inv := rfl

theorem Stack.inv_push {T : Type} (s : Stack T) (v : T) (h : s.Inv) :
    (s.push v).Inv := by
  simp [Stack.Inv, Stack.push] at *
  omega

theorem Stack.inv_pop {T : Type} (s : Stack T) (h : s.Inv) :
    (s.pop).2.Inv := by
  unfold Stack.Inv Stack.pop at *
  cases hh : s.head with
  | nil => simpa [hh] using h
  | cons v next =>
    rw [hh] at h
    simp [hh, List.length_cons] at *
    omega

theorem Stack.reachable_inv {T : Type} (s : Stack T)
    (h : s.Reachable) : s.Inv := by
  induction h with
  | new => exact Stack.inv_new
  | push s v _ ih => exact Stack.inv_push s v ih
  | pop s _ ih => exact Stack.inv_pop s ih

theorem Stack.inv_empty_iff {T : Type} (s : Stack T) (h : s.Inv) :
    s.head = [] ↔ s.size = 0 := by
  unfold Stack.Inv at h
  rw [h, List.length_eq_zero]

theorem searchAux_eq_firstMatchDepth {T : Type} [DecidableEq T]
    (l : List T) (pos : Nat) (v : T) :
    searchAux l pos v = (firstMatchDepth l v).map (fun i => pos - i) := by
  induction l generalizing pos with
  | nil => rfl
  | cons x xs ih =>
    by_cases hx : x = v
    · simp [searchAux, firstMatchDepth, hx]
    · simp only [searchAux, firstMatchDepth, if_neg hx, ih (pos - 1),
        Option.map_map]
      cases firstMatchDepth xs v with
      | none => rfl
      | some i =>
        simp only [Option.map_some', Function.comp_apply, Option.some.injEq]
        omega

theorem firstMatchDepth_eq_none_iff {T : Type} [DecidableEq T]
    (l : List T) (v : T) :
    firstMatchDepth l v = none ↔ v ∉ l := by
  induction l with
  | nil => simp [firstMatchDepth]
  | cons x xs ih =>
    by_cases hx : x = v
    · simp [firstMatchDepth, hx]
    · have hm : (firstMatchDepth xs v).map (· + 1) = none ↔
          firstMatchDepth xs v = none := by
        cases firstMatchDepth xs v <;> simp
      simp only [firstMatchDepth, if_neg hx, hm, ih, List.mem_cons, not_or]
      constructor
      · intro hn
        exact ⟨fun hv => hx hv.symm, hn⟩
      · intro hn
        exact hn.2

theorem firstMatchDepth_lt_length {T : Type} [DecidableEq T]
    (l : List T) (v : T) (i : Nat) (h : firstMatchDepth l v = some i) :
    i < l.length := by
  induction l generalizing i with
  | nil => simp [firstMatchDepth] at h
  | cons x xs ih =>
    by_cases hx : x = v
    · simp [firstMatchDepth, hx] at h
      simp [List.length_cons]
      omega
    · simp only [firstMatchDepth, if_neg hx, Option.map_eq_some'] at h
      obtain ⟨j, hj, rfl⟩ := h
      have := ih j hj
      simp only [List.length_cons]
      omega

theorem searchNoUnderflow_of_length_le {T : Type} (l : List T) (pos : Nat)
    (h : l.length ≤ pos) : searchNoUnderflow l pos := by
  induction l generalizing pos with
  | nil => trivial
  | cons x xs ih =>
    simp only [List.length_cons] at h
    exact ⟨by omega, ih (pos - 1) (by omega)⟩

/-- Claim C1: for every stack state reachable from `new` by any sequence of
the five operations, the `size` field equals the number of nodes reachable
by following `next` links from `head`, and `push` and `pop` each preserve
this equality (`peek` and `search` take `&self` and leave the state
untouched, so they preserve it trivially). -/
theorem claim_C1_count_chain_length {T : Type} (s : Stack T) (v : T)
    (h : s.Reachable) :
    s.size = s.head.length ∧
    (s.push v).size = (s.push v).head.length ∧
    (s.pop).2.size = (s.pop).2.head.length := by
  have hInv := Stack.reachable_inv s h
  exact ⟨hInv, Stack.inv_push s v hInv, Stack.inv_pop s hInv⟩

theorem claim_C1_witness :
    (Stack.new Nat).Reachable ∧
    ((Stack.new Nat).size = (Stack.new Nat).head.length ∧
     ((Stack.new Nat).push 5).size = ((Stack.new Nat).push 5).head.length ∧
     ((Stack.new Nat).pop).2.size = ((Stack.new Nat).pop).2.head.length) :=
  ⟨Stack.Reachable.new,
   claim_C1_count_chain_length (Stack.new Nat) 5 Stack.Reachable.new⟩

/-- Claim C2: for every reachable stack state, the head is absent (the empty
chain) exactly when the size is zero, and `push` and `pop` each preserve this
biconditional (`peek` and `search` do not change the state). -/
theorem claim_C2_empty_iff_size_zero {T : Type} (s : Stack T) (v : T)
    (h : s.Reachable) :
    (s.head = [] ↔ s.size = 0) ∧
    ((s.push v).head = [] ↔ (s.push v).size = 0) ∧
    ((s.pop).2.head = [] ↔ (s.pop).2.size = 0) := by
  have hInv := Stack.reachable_inv s h
  exact ⟨Stack.inv_empty_iff s hInv,
    Stack.inv_empty_iff _ (Stack.inv_push s v hInv),
    Stack.inv_empty_iff _ (Stack.inv_pop s hInv)⟩

theorem claim_C2_witness :
    (Stack.new Nat).Reachable ∧
    (((Stack.new Nat).head = [] ↔ (Stack.new Nat).size = 0) ∧
     (((Stack.new Nat).push 5).head = [] ↔ ((Stack.new Nat).push 5).size = 0) ∧
     (((Stack.new Nat).pop).2.head = [] ↔ ((Stack.new Nat).pop).2.size = 0)) :=
  ⟨Stack.Reachable.new,
   claim_C2_empty_iff_size_zero (Stack.new Nat) 5 Stack.Reachable.new⟩

/-- Claim C3: on a reachable stack, `pop` of an empty stack returns `none`
and leaves the stack unchanged with size 0; `pop` of a non-empty stack
returns the former top value, reassigns the head to that node's successor,
and decrements the size by exactly 1. -/
theorem claim_C3_pop_spec {T : Type} (s : Stack T) (h : s.Reachable) :
    (s.head = [] → s.pop = (none, s) ∧ s.size = 0) ∧
    (s.head ≠ [] →
      (s.pop).1 = s.head.head? ∧
      (s.pop).2.head = s.head.tail ∧
      (s.pop).2.size + 1 = s.size) := by
  have hInv := Stack.reachable_inv s h
  obtain ⟨hd, sz⟩ := s
  cases hd with
  | nil =>
    refine ⟨fun _ => ⟨rfl, ?_⟩, fun hne => absurd rfl hne⟩
    simpa [Stack.Inv] using hInv
  | cons a next =>
    refine ⟨fun he => List.noConfusion he, fun _ => ⟨rfl, rfl, ?_⟩⟩
    have hs : sz = next.length + 1 := by simpa [Stack.Inv] using hInv
    show sz - 1 + 1 = sz
    omega

theorem claim_C3_witness :
    ((Stack.new Nat).pop = (none, Stack.new Nat) ∧ (Stack.new Nat).size = 0) ∧
    ((((Stack.new Nat).push 4).pop).1 = ((Stack.new Nat).push 4).head.head? ∧
     (((Stack.new Nat).push 4).pop).2.head =
       ((Stack.new Nat).push 4).head.tail ∧
     (((Stack.new Nat).push 4).pop).2.size + 1 =
       ((Stack.new Nat).push 4).size) :=
  ⟨(claim_C3_pop_spec (Stack.new Nat) Stack.Reachable.new).1 rfl,
   (claim_C3_pop_spec ((Stack.new Nat).push 4)
     (Stack.Reachable.push _ 4 Stack.Reachable.new)).2 (by decide)⟩

/-- Claim C4: on a reachable stack, `search` returns the position of the
first (topmost) element equal to the queried value, where a match at 0-based
depth `i` from the top gets position `size - i` — so the topmost element is
numbered `size` (the count) and the bottommost is numbered 1 — and `search`
returns `none` exactly when no element equals the value (in particular on an
empty stack); every returned position lies between 1 and the count. -/
theorem claim_C4_search_position {T : Type} [DecidableEq T] (s : Stack T)
    (v : T) (h : s.Reachable) :
    s.search v = (firstMatchDepth s.head v).map (fun i => s.size - i) ∧
    (s.search v = none ↔ v ∉ s.head) ∧
    (s.search v ≠ none →
      1 ≤ (s.search v).getD 0 ∧ (s.search v).getD 0 ≤ s.size) := by
  have hInv := Stack.reachable_inv s h
  have hmap : s.search v =
      (firstMatchDepth s.head v).map (fun i => s.size - i) :=
    searchAux_eq_firstMatchDepth s.head s.size v
  refine ⟨hmap, ?_, ?_⟩
  · have hn : s.search v = none ↔ firstMatchDepth s.head v = none := by
      rw [hmap]
      cases firstMatchDepth s.head v <;> simp
    rw [hn, firstMatchDepth_eq_none_iff]
  · intro hne
    cases hf : firstMatchDepth s.head v with
    | none =>
      rw [hmap, hf] at hne
      simp at hne
    | some i =>
      have hi := firstMatchDepth_lt_length s.head v i hf
      have hv : s.search v = some (s.size - i) := by rw [hmap, hf]; rfl
      rw [hv]
      unfold Stack.Inv at hInv
      simp only [Option.getD_some]
      omega

theorem claim_C4_witness :
    (((Stack.new Nat).push 3).push 6).Reachable ∧
    ((((Stack.new Nat).push 3).push 6).search 3 =
      (firstMatchDepth (((Stack.new Nat).push 3).push 6).head 3).map
        (fun i => (((Stack.new Nat).push 3).push 6).size - i) ∧
     ((((Stack.new Nat).push 3).push 6).search 3 = none ↔
       3 ∉ (((Stack.new Nat).push 3).push 6).head) ∧
     ((((Stack.new Nat).push 3).push 6).search 3 ≠ none →
       1 ≤ ((((Stack.new Nat).push 3).push 6).search 3).getD 0 ∧
       ((((Stack.new Nat).push 3).push 6).search 3).getD 0 ≤
         (((Stack.new Nat).push 3).push 6).size)) :=
  ⟨Stack.Reachable.push _ 6 (Stack.Reachable.push _ 3 Stack.Reachable.new),
   claim_C4_search_position (((Stack.new Nat).push 3).push 6) 3
     (Stack.Reachable.push _ 6 (Stack.Reachable.push _ 3
       Stack.Reachable.new))⟩

/-- Claim C5: pushing a value and immediately popping returns that value
wrapped as present and restores the stack — head and size both — to exactly
its pre-push state. -/
theorem claim_C5_push_pop_roundtrip {T : Type} (s : Stack T) (v : T) :
    (s.push v).pop = (some v, s) :=
  rfl

/-- Claim C6: `peek` returns `none` on an empty stack and otherwise the top
value.  `peek` takes `&self` in the source, so in the embedding it is a pure
function of the stack: the state after a `peek` is the same stack, hence
`size`, `head` and the whole chain are unchanged by construction. -/
theorem claim_C6_peek_spec {T : Type} (s : Stack T) :
    (s.head = [] → s.peek = none) ∧
    (s.head ≠ [] → s.peek = s.head.head?) := by
  obtain ⟨hd, sz⟩ := s
  cases hd with
  | nil => exact ⟨fun _ => rfl, fun hne => absurd rfl hne⟩
  | cons a next => exact ⟨fun he => List.noConfusion he, fun _ => rfl⟩

theorem claim_C6_witness :
    (Stack.new Nat).peek = none ∧
    ((Stack.new Nat).push 7).peek = ((Stack.new Nat).push 7).head.head? :=
  ⟨(claim_C6_peek_spec (Stack.new Nat)).1 rfl,
   (claim_C6_peek_spec ((Stack.new Nat).push 7)).2 (by decide)⟩

/-- Claim C7: on any non-empty stack, the value returned by `pop` is the
value `peek` would have returned immediately beforehand. -/
theorem claim_C7_pop_agrees_with_peek {T : Type} (s : Stack T)
    (h : s.head ≠ []) : (s.pop).1 = s.peek := by
  obtain ⟨hd, sz⟩ := s
  cases hd with
  | nil => exact absurd rfl h
  | cons a next => rfl

theorem claim_C7_witness :
    ((Stack.new Nat).push 2).head ≠ [] ∧
    (((Stack.new Nat).push 2).pop).1 = ((Stack.new Nat).push 2).peek :=
  ⟨by decide,
   claim_C7_pop_agrees_with_peek ((Stack.new Nat).push 2) (by decide)⟩

/-- Claim C8: `search` on an empty stack returns `none` for every queried
value — the same absent result as the not-found case, so the two are
indistinguishable from the return value. -/
theorem claim_C8_search_empty {T : Type} [DecidableEq T] (s : Stack T)
    (v : T) (h : s.head = []) : s.search v = none := by
  show searchAux s.head s.size v = none
  rw [h]
  rfl

theorem claim_C8_witness :
    (Stack.new Nat).head = [] ∧ (Stack.new Nat).search 7 = none :=
  ⟨rfl, claim_C8_search_empty (Stack.new Nat) 7 rfl⟩

/-- Claim C9: the concrete scenario of the source test `tests::basics`:
after `new`, `push 3`, `push 6`, `push 9` the size is 3 and `peek` gives 9;
`pop` gives 9; on the result, `search 6` gives position 2 and the size is 2;
the next `pop` gives 6 and then `peek` gives 3. -/
theorem claim_C9_basics_scenario :
    ((((Stack.new Nat).push 3).push 6).push 9).size = 3 ∧
    ((((Stack.new Nat).push 3).push 6).push 9).peek = some 9 ∧
    (((((Stack.new Nat).push 3).push 6).push 9).pop).1 = some 9 ∧
    ((((((Stack.new Nat).push 3).push 6).push 9).pop).2).search 6 = some 2 ∧
    ((((((Stack.new Nat).push 3).push 6).push 9).pop).2).size = 2 ∧
    (((((((Stack.new Nat).push 3).push 6).push 9).pop).2).pop).1 = some 6 ∧
    (((((((Stack.new Nat).push 3).push 6).push 9).pop).2).pop).2.peek =
      some 3 := by
  decide

/-- Claim C10: under the invariant that the size equals the chain length,
neither unsigned decrement can underflow: the `size -= 1` in `pop` only runs
with `1 ≤ size`, and every `pos -= 1` in the `search` loop runs with
`1 ≤ pos`, so both operations are total and panic-free. -/
theorem claim_C10_no_underflow {T : Type} (s : Stack T) (h : s.Inv) :
    s.popNoUnderflow ∧ searchNoUnderflow s.head s.size := by
  constructor
  · intro hne
    unfold Stack.Inv at h
    cases hh : s.head with
    | nil => exact absurd hh hne
    | cons a next =>
      rw [hh] at h
      simp only [List.length_cons] at h
      omega
  · exact searchNoUnderflow_of_length_le s.head s.size (le_of_eq h.symm)

theorem claim_C10_witness :
    Stack.Inv { head := ([5, 8] : List Nat), size := 2 } ∧
    (Stack.popNoUnderflow { head := ([5, 8] : List Nat), size := 2 } ∧
     searchNoUnderflow ([5, 8] : List Nat) 2) :=
  ⟨rfl, claim_C10_no_underflow { head := ([5, 8] : List Nat), size := 2 } rfl⟩
